import Mathlib

/-!
Verification of the policy-learning notebook
(src/_build/jupyter_execute/notebooks/6_Policy_Learning_1.py).

The notebook's numerical computations are numpy float operations.  We embed
them over the rationals extended with a NaN element (`NVal`): numpy's mean
and variance of an empty slice are NaN, NaN propagates through arithmetic,
and float operations never raise.  Every division by zero reached in this
development has numerator 0 or NaN, where IEEE division also yields NaN, so
mapping division by zero to NaN is faithful on all code paths studied here.
-/

/-- A numpy floating value: either NaN or a finite value, modelled as a
rational.  NaN is absorbing for all arithmetic, as in IEEE when no
infinities are involved. -/
inductive NVal where
  | nan : NVal
  | val : ℚ → NVal
deriving DecidableEq

namespace NVal

/-- Addition; NaN propagates. -/
def add : NVal → NVal → NVal
  | val a, val b => val (a + b)
  | _, _ => nan

/-- Subtraction; NaN propagates. -/
def sub : NVal → NVal → NVal
  | val a, val b => val (a - b)
  | _, _ => nan

/-- Multiplication; NaN propagates (IEEE: NaN * 0 = NaN). -/
def mul : NVal → NVal → NVal
  | val a, val b => val (a * b)
  | _, _ => nan

/-- Division; NaN propagates, and division by zero yields NaN.  In numpy
x/0 is ±inf for finite x ≠ 0, but every division by zero reached below has
numerator 0 or NaN, where numpy also yields NaN. -/
def div : NVal → NVal → NVal
  | val a, val b => if b = 0 then nan else val (a / b)
  | _, _ => nan

instance : Add NVal := ⟨add⟩
instance : Sub NVal := ⟨sub⟩
instance : Mul NVal := ⟨mul⟩
instance : Div NVal := ⟨div⟩

end NVal

/-- Sum of a list of numpy values (numpy sum of an empty array is 0). -/
def sumN (l : List NVal) : NVal := l.foldr (· + ·) (NVal.val 0)

/-- np.mean: sum divided by length; the mean of an empty array is NaN
(0/0). -/
def meanN (l : List NVal) : NVal := sumN l / NVal.val l.length

/-- np.var (population variance, ddof = 0): mean of squared deviations
from the mean; NaN on an empty array. -/
def varN (l : List NVal) : NVal :=
  meanN (l.map (fun v => (v - meanN l) * (v - meanN l)))

/-- np.mean of a boolean array: True counts as 1, False as 0. -/
def meanB (a : List Bool) : NVal :=
  meanN (a.map (fun b => NVal.val (if b then 1 else 0)))

/-- The mask `c_1 = a & (w_eval == 1)` of extr_val_sd (line 182):
units the policy treats that were actually treated. -/
def c1Mask (a w_eval : List Bool) : List Bool :=
  List.zipWith (fun ai wi => ai && wi) a w_eval

/-- The mask `c_0 = np.logical_not(a) & (w_eval == 0)` of extr_val_sd
(line 183): units the policy leaves untreated that were actually
untreated. -/
def c0Mask (a w_eval : List Bool) : List Bool :=
  List.zipWith (fun ai wi => !ai && !wi) a w_eval

/-- Boolean-mask selection, as in `y_eval_main.loc[mask]['y']` /
`y_eval[mask]`: the outcomes at the positions where the mask is True. -/
def maskSel (ys : List ℚ) (mask : List Bool) : List ℚ :=
  ((ys.zip mask).filter (fun p => p.2)).map (fun p => p.1)

/-- The local `mean_1 = np.mean(y_1 - cost) * np.mean(a)` of extr_val_sd
(line 192). -/
def extr_mean_1 (y_eval : List ℚ) (w_eval a : List Bool) (cost : ℚ) : NVal :=
  meanN (((maskSel y_eval (c1Mask a w_eval)).map (fun q => q - cost)).map NVal.val) * meanB a

/-- The local `mean_0 = np.mean(y_0) * np.mean(np.logical_not(a))` of
extr_val_sd (line 193). -/
def extr_mean_0 (y_eval : List ℚ) (w_eval a : List Bool) : NVal :=
  meanN ((maskSel y_eval (c0Mask a w_eval)).map NVal.val) * meanB (a.map (fun b => !b))

/-- The local `var_1 = np.var(y_eval[c_1]) / np.sum(c_1) * np.mean(a)**2`
of extr_val_sd (line 196). -/
def extr_var_1 (y_eval : List ℚ) (w_eval a : List Bool) : NVal :=
  varN ((maskSel y_eval (c1Mask a w_eval)).map NVal.val) /
      NVal.val ((c1Mask a w_eval).count true) * (meanB a * meanB a)

/-- The local `var_0 = np.var(y_eval[c_0]) / np.sum(c_0) * np.mean(np.logical_not(a))**2`
of extr_val_sd (line 197). -/
def extr_var_0 (y_eval : List ℚ) (w_eval a : List Bool) : NVal :=
  varN ((maskSel y_eval (c0Mask a w_eval)).map NVal.val) /
      NVal.val ((c0Mask a w_eval).count true) *
      (meanB (a.map (fun b => !b)) * meanB (a.map (fun b => !b)))

/-- Embedding of extr_val_sd (lines 181-199): the sample-mean policy-value
estimator, returning `(val_est, var_1 + var_0)`.  The treatment indicator
`w_eval` is binary in every call, so it is a boolean list (`w_eval == 1`
is the list itself, `w_eval == 0` its negation).  The source returns
`np.sqrt(var_1 + var_0)` as second component; we return the radicand,
since the final strictly monotone square root preserves equality and
NaN-ness, on which all claims about the standard error are stated. -/
def extr_val_sd (y_eval : List ℚ) (w_eval a : List Bool) (cost : ℚ) :
    NVal × NVal :=
  (extr_mean_1 y_eval w_eval a cost + extr_mean_0 y_eval w_eval a,
   extr_var_1 y_eval w_eval a + extr_var_0 y_eval w_eval a)

/-- The fraction of units the policy assigns to treatment, `np.mean(a)`
as a rational. -/
def fracTreated (a : List Bool) : ℚ := (a.count true : ℚ) / a.length

/-- Value of a rational vector at an index, out-of-range reading 0
(indices fed to it below always come from `List.range`). -/
def valD (l : List ℚ) (i : ℕ) : ℚ := l.getD i 0

/-- The total preorder by which `np.argsort` orders indices: ascending by
value, ties broken by original position (numpy argsort is
order-preserving on ties for the small arrays evaluated here, and a
stable sort is the standard deterministic embedding). -/
def idxLe (l : List ℚ) (i j : ℕ) : Prop :=
  valD l i < valD l j ∨ (valD l i = valD l j ∧ i ≤ j)

instance (l : List ℚ) : DecidableRel (idxLe l) := fun i j =>
  decidable_of_iff (valD l i < valD l j ∨ (valD l i = valD l j ∧ i ≤ j)) Iff.rfl

instance (l : List ℚ) : IsTotal ℕ (idxLe l) where
  total i j := by
    rcases lt_trichotomy (valD l i) (valD l j) with h | h | h
    · exact Or.inl (Or.inl h)
    · rcases Nat.le_total i j with h2 | h2
      · exact Or.inl (Or.inr ⟨h, h2⟩)
      · exact Or.inr (Or.inr ⟨h.symm, h2⟩)
    · exact Or.inr (Or.inl h)

instance (l : List ℚ) : IsTrans ℕ (idxLe l) where
  trans i j k hij hjk := by
    rcases hij with h1 | ⟨e1, le1⟩
    · rcases hjk with h2 | ⟨e2, _⟩
      · exact Or.inl (h1.trans h2)
      · exact Or.inl (e2 ▸ h1)
    · rcases hjk with h2 | ⟨e2, le2⟩
      · exact Or.inl (e1 ▸ h2)
      · exact Or.inr ⟨e1.trans e2, le1.trans le2⟩

instance (l : List ℚ) : IsAntisymm ℕ (idxLe l) where
  antisymm i j hij hji := by
    rcases hij with h1 | ⟨e1, le1⟩
    · rcases hji with h2 | ⟨e2, _⟩
      · exact absurd (h1.trans h2) (lt_irrefl _)
      · exact absurd h1 (e2.symm ▸ lt_irrefl _)
    · rcases hji with h2 | ⟨_, le2⟩
      · exact absurd h2 (e1 ▸ lt_irrefl _)
      · exact Nat.le_antisymm le1 le2

/-- np.argsort: the indices 0..n-1 reordered so that the values are
ascending (stable on ties). -/
def argsort (l : List ℚ) : List ℕ :=
  List.insertionSort (idxLe l) (List.range l.length)

/-- Line 813: `rank_ignore_cost = (-tau_hat).argsort()`, the ordering of
evaluation units by decreasing estimated treatment effect. -/
def rank_ignore_cost (tau_hat : List ℚ) : List ℕ :=
  argsort (tau_hat.map (fun q => -q))

/-- Line 814: `rank_ratio = (-gamm_hat).argsort()`.  Note the source
orders by the estimated cost `gamm_hat` alone; `tau_hat` does not occur. -/
def rank_ratio (gamm_hat : List ℚ) : List ℕ :=
  argsort (gamm_hat.map (fun q => -q))

/-- Line 890: `rank_iv = (-rho_iv).argsort()`, ordering by the
instrumental-forest ratio estimate. -/
def rank_iv (rho_iv : List ℚ) : List ℕ :=
  argsort (rho_iv.map (fun q => -q))

/-- Modelled from the spec: the ratio ranking the spec describes,
"rank units in decreasing order of estimated benefit-to-cost ratio"
(benefit estimate tau_hat divided by cost estimate gamm_hat), stated for
comparison against the source's `rank_ratio`. -/
def rank_ratio_spec (tau_hat gamm_hat : List ℚ) : List ℕ :=
  argsort ((tau_hat.zip gamm_hat).map (fun p => -(p.1 / p.2)))

/-- Modelled from the spec: the greedy walk down a ranking, "assign
treatment greedily down the ranking until either the ratio becomes
non-positive or the cumulative budget is exhausted".  The source only
computes the rankings and cost curves; the stop rule itself is not in
src/.  Returns the treated units in treatment order. -/
def greedyGo (ratio cost : List ℚ) : ℚ → List ℕ → List ℕ
  | _, [] => []
  | b, u :: rest =>
    if valD ratio u ≤ 0 then []
    else if b < valD cost u then []
    else u :: greedyGo ratio cost (b - valD cost u) rest

/-- Modelled from the spec: the budget-constrained greedy ranking policy
(spec 4.3), walking the source's ranking `argsort(-ratio)` with budget
`b`. -/
def greedyPolicy (ratio cost : List ℚ) (b : ℚ) : List ℕ :=
  greedyGo ratio cost b (argsort (ratio.map (fun q => -q)))

/-- Line 259: `pi_hat = tau_hat > 0`, the policy that treats a unit
exactly when its estimated effect is positive, as a list of treated
indices. -/
def treat_if_positive (tau_hat : List ℚ) : List ℕ :=
  (List.range tau_hat.length).filter (fun u => decide (0 < valD tau_hat u))

/-- Total cost of a set of unit indices. -/
def costSum (cost : List ℚ) (idxs : List ℕ) : ℚ :=
  (idxs.map (valD cost)).sum

/-- The per-unit combined AIPW score of line 218,
`gamma_hat_pi = pi_hat * gamma_hat_1 + (1 - pi_hat) * gamma_hat_0`
(and identically line 562); the boolean policy enters as its 0/1
indicator. -/
def gamma_hat_pi (pi_hat : List Bool) (g1 g0 : List NVal) : List NVal :=
  List.zipWith
    (fun p g => NVal.val (if p then 1 else 0) * g.1 +
      (NVal.val 1 - NVal.val (if p then 1 else 0)) * g.2)
    pi_hat (g1.zip g0)

/-- The combined score as written at line 441:
`gamma_hat_pi = pi_hat + gamma_hat_1.iloc[int(n/2):] + (1 - pi_hat) * gamma_hat_0.iloc[int(n/2):]`,
i.e. `pi_hat` is ADDED to the treated-arm score instead of multiplying
it. -/
def gamma_hat_pi_441 (pi_hat : List Bool) (g1 g0 : List NVal) : List NVal :=
  List.zipWith
    (fun p g => NVal.val (if p then 1 else 0) + g.1 +
      (NVal.val 1 - NVal.val (if p then 1 else 0)) * g.2)
    pi_hat (g1.zip g0)

/-- The state of the fitted causal forest that double_robust_score reads:
the cached residual pair `residuals_` (outcome residuals, treatment
residuals) and the effect method producing CATE predictions from
covariates. -/
structure ForestModel where
  residuals_ : List ℚ × List ℚ
  effectFn : List (List ℚ) → List ℚ

/-- Line 359 inside double_robust_score: `e_hat = w - residuals[1]`, the
propensity estimates the scores later divide by, exactly as computed —
no assertion and no clipping. -/
def drs_e_hat (forest_model : ForestModel) (w : List ℚ) : List ℚ :=
  List.zipWith (fun a b => a - b) w forest_model.residuals_.2

/-- Line 360 inside double_robust_score: `y_hat = y - residuals[0]`. -/
def drs_y_hat (forest_model : ForestModel) (y : List ℚ) : List ℚ :=
  List.zipWith (fun a b => a - b) y forest_model.residuals_.1

/-- Line 361: `mu_hat_1 = y_hat + (1 - e_hat) * tau_hat`. -/
def drs_mu_hat_1 (forest_model : ForestModel) (y w : List ℚ)
    (x : List (List ℚ)) : List ℚ :=
  List.zipWith (fun yh p => yh + p) (drs_y_hat forest_model y)
    (List.zipWith (fun e t => (1 - e) * t) (drs_e_hat forest_model w)
      (forest_model.effectFn x))

/-- Line 362: `mu_hat_0 = y_hat - e_hat * tau_hat`. -/
def drs_mu_hat_0 (forest_model : ForestModel) (y w : List ℚ)
    (x : List (List ℚ)) : List ℚ :=
  List.zipWith (fun yh p => yh - p) (drs_y_hat forest_model y)
    (List.zipWith (fun e t => e * t) (drs_e_hat forest_model w)
      (forest_model.effectFn x))

/-- Line 364: `gamma_hat_1 = mu_hat_1 + w / e_hat * (y - mu_hat_1)`, the
treated-arm AIPW score; the division by the unclipped `e_hat` is where a
degenerate propensity estimate turns the score into NaN. -/
def drs_gamma_hat_1 (forest_model : ForestModel) (y w : List ℚ)
    (x : List (List ℚ)) : List NVal :=
  List.zipWith
    (fun (m : ℚ × ℚ) (p : ℚ × ℚ) =>
      NVal.val m.1 + (NVal.val p.1 / NVal.val p.2) * (NVal.val m.2 - NVal.val m.1))
    ((drs_mu_hat_1 forest_model y w x).zip y)
    (w.zip (drs_e_hat forest_model w))

/-- Line 365: `gamma_hat_0 = mu_hat_0 + (1 - w) / (1 - e_hat) * (y - mu_hat_0)`,
the control-arm AIPW score. -/
def drs_gamma_hat_0 (forest_model : ForestModel) (y w : List ℚ)
    (x : List (List ℚ)) : List NVal :=
  List.zipWith
    (fun (m : ℚ × ℚ) (p : ℚ × ℚ) =>
      NVal.val m.1 + (NVal.val p.1 / NVal.val p.2) * (NVal.val m.2 - NVal.val m.1))
    ((drs_mu_hat_0 forest_model y w x).zip y)
    ((w.map (fun q => 1 - q)).zip ((drs_e_hat forest_model w).map (fun q => 1 - q)))

/-- Embedding of double_robust_score (lines 354-367): recovers the
nuisance estimates from the forest residuals and returns the pair
`(gamma_hat_1, gamma_hat_0)` of per-unit AIPW scores. -/
def double_robust_score (forest_model : ForestModel) (y w : List ℚ)
    (x : List (List ℚ)) : List NVal × List NVal :=
  (drs_gamma_hat_1 forest_model y w x, drs_gamma_hat_0 forest_model y w x)

/-- A call to double_robust_score, returning alongside the scores the
forest model after the call: the source only reads
`forest_model.residuals_` and calls `effect`, assigning to none of its
arguments, so the model comes back unchanged. -/
def double_robust_score_call (forest_model : ForestModel) (y w : List ℚ)
    (x : List (List ℚ)) : (List NVal × List NVal) × ForestModel :=
  (double_robust_score forest_model y w x, forest_model)

/-- The row indices a policy is fit on: `x.iloc[:train]` /
`gamma_mtrx.iloc[:train]` (lines 396, 521). -/
def fitRows (n_row train : ℕ) : List ℕ := (List.range n_row).take train

/-- The row indices a policy is evaluated on: `x.iloc[train:]`,
`data.iloc[train:]` (lines 403, 428-429, 524, 547-548). -/
def testRows (n_row train : ℕ) : List ℕ := (List.range n_row).drop train

/-- Concrete forest state used by witnesses. -/
def fmW : ForestModel := ⟨([0], [0]), fun _ => [1]⟩

/-! ## Basic facts about the NaN-propagating arithmetic -/

@[simp] theorem NVal.nan_add (x : NVal) : NVal.nan + x = NVal.nan := by
  cases x <;> rfl

@[simp] theorem NVal.add_nan (x : NVal) : x + NVal.nan = NVal.nan := by
  cases x <;> rfl

@[simp] theorem NVal.nan_sub (x : NVal) : NVal.nan - x = NVal.nan := by
  cases x <;> rfl

@[simp] theorem NVal.sub_nan (x : NVal) : x - NVal.nan = NVal.nan := by
  cases x <;> rfl

@[simp] theorem NVal.nan_mul (x : NVal) : NVal.nan * x = NVal.nan := by
  cases x <;> rfl

@[simp] theorem NVal.mul_nan (x : NVal) : x * NVal.nan = NVal.nan := by
  cases x <;> rfl

@[simp] theorem NVal.nan_div (x : NVal) : NVal.nan / x = NVal.nan := by
  cases x <;> rfl

@[simp] theorem NVal.div_nan (x : NVal) : x / NVal.nan = NVal.nan := by
  cases x <;> rfl

@[simp] theorem NVal.val_add_val (a b : ℚ) :
    NVal.val a + NVal.val b = NVal.val (a + b) := rfl

@[simp] theorem NVal.val_sub_val (a b : ℚ) :
    NVal.val a - NVal.val b = NVal.val (a - b) := rfl

@[simp] theorem NVal.val_mul_val (a b : ℚ) :
    NVal.val a * NVal.val b = NVal.val (a * b) := rfl

theorem NVal.val_div_val (a : ℚ) {b : ℚ} (h : b ≠ 0) :
    NVal.val a / NVal.val b = NVal.val (a / b) := by
  show NVal.div _ _ = _
  simp [NVal.div, h]

@[simp] theorem NVal.val_div_zero (a : ℚ) :
    NVal.val a / NVal.val 0 = NVal.nan := by
  show NVal.div _ _ = _
  simp [NVal.div]

@[simp] theorem NVal.mul_val_one (x : NVal) : x * NVal.val 1 = x := by
  cases x with
  | nan => rfl
  | val r => show NVal.mul _ _ = _; simp [NVal.mul]

theorem sumN_map_val (l : List ℚ) : sumN (l.map NVal.val) = NVal.val l.sum := by
  induction l with
  | nil => rfl
  | cons a t ih =>
    simp only [List.map_cons, sumN, List.foldr_cons] at ih ⊢
    rw [ih, NVal.val_add_val, List.sum_cons]

@[simp] theorem meanN_nil : meanN [] = NVal.nan := by decide

@[simp] theorem varN_nil : varN [] = NVal.nan := by
  simp [varN]

theorem length_ne_zero_cast {l : List ℚ} (h : l ≠ []) :
    ((l.length : ℚ)) ≠ 0 := by
  have hn : l.length ≠ 0 := by simpa [List.length_eq_zero] using h
  exact_mod_cast hn

theorem meanN_map_val {l : List ℚ} (h : l ≠ []) :
    meanN (l.map NVal.val) = NVal.val (l.sum / l.length) := by
  rw [meanN, sumN_map_val, List.length_map,
    NVal.val_div_val _ (length_ne_zero_cast h)]

theorem sum_map_sub_const (l : List ℚ) (c : ℚ) :
    (l.map (fun q => q - c)).sum = l.sum - l.length * c := by
  induction l with
  | nil => simp
  | cons a t ih =>
    simp only [List.map_cons, List.sum_cons, ih, List.length_cons]
    push_cast
    ring

theorem meanN_map_val_sub (l : List ℚ) (c : ℚ) :
    meanN ((l.map (fun q => q - c)).map NVal.val) =
      meanN (l.map NVal.val) - NVal.val c := by
  rcases eq_or_ne l [] with rfl | h
  · simp
  · have h2 : l.map (fun q => q - c) ≠ [] := by simpa using h
    rw [meanN_map_val h2, meanN_map_val h, sum_map_sub_const, List.length_map,
      NVal.val_sub_val]
    have hn := length_ne_zero_cast h
    congr 1
    field_simp

theorem count_true_indicator_sum (a : List Bool) :
    (a.map (fun b => if b then (1 : ℚ) else 0)).sum = a.count true := by
  induction a with
  | nil => simp
  | cons b t ih =>
    cases b with
    | false => simp [ih, List.count_cons]
    | true =>
      simp [ih, List.count_cons]
      ring

theorem meanB_eq {a : List Bool} (h : a ≠ []) :
    meanB a = NVal.val (fracTreated a) := by
  have hmap : a.map (fun b => NVal.val (if b then 1 else 0)) =
      (a.map (fun b => if b then (1 : ℚ) else 0)).map NVal.val := by
    rw [List.map_map]
    rfl
  have h2 : a.map (fun b => if b then (1 : ℚ) else 0) ≠ [] := by simpa using h
  rw [meanB, hmap, meanN_map_val h2, count_true_indicator_sum, List.length_map]
  rfl

theorem sub_val_mul_val (A : NVal) (c f : ℚ) :
    (A - NVal.val c) * NVal.val f = A * NVal.val f - NVal.val (c * f) := by
  cases A with
  | nan => simp
  | val r =>
    simp only [NVal.val_sub_val, NVal.val_mul_val]
    congr 1
    ring

theorem sub_val_add (A B : NVal) (k : ℚ) :
    (A - NVal.val k) + B = (A + B) - NVal.val k := by
  cases A with
  | nan => simp
  | val r =>
    cases B with
    | nan => simp
    | val s =>
      simp only [NVal.val_sub_val, NVal.val_add_val]
      congr 1
      ring

@[simp] theorem sub_val_zero (A : NVal) : A - NVal.val 0 = A := by
  cases A with
  | nan => simp
  | val r => simp only [NVal.val_sub_val, sub_zero]

/-! ## Facts about the masks of extr_val_sd -/

theorem maskSel_count_zero (ys : List ℚ) {m : List Bool}
    (h : m.count true = 0) : maskSel ys m = [] := by
  have hnot : true ∉ m := List.count_eq_zero.mp h
  have hfil : (ys.zip m).filter (fun p => p.2) = [] := by
    rw [List.filter_eq_nil_iff]
    rintro ⟨q, b⟩ hmem
    have hb : b ∈ m := (List.of_mem_zip hmem).2
    simp only [decide_eq_true_eq]
    intro hbt
    exact hnot (hbt ▸ hb)
  rw [maskSel, hfil, List.map_nil]

theorem c1Mask_nil_left (w : List Bool) : c1Mask [] w = [] := rfl

theorem c1Mask_replicate (n : ℕ) (w : List Bool) :
    c1Mask (List.replicate n true) w = w.take n := by
  induction w generalizing n with
  | nil => simp [c1Mask]
  | cons b t ih =>
    cases n with
    | zero => simp [c1Mask]
    | succ m =>
      simp only [List.replicate_succ, c1Mask, List.zipWith_cons_cons,
        List.take_succ_cons, Bool.true_and]
      exact congrArg (b :: ·) (ih m)

theorem c0Mask_replicate_count (n : ℕ) (w : List Bool) :
    (c0Mask (List.replicate n true) w).count true = 0 := by
  induction w generalizing n with
  | nil => simp [c0Mask]
  | cons b t ih =>
    cases n with
    | zero => simp [c0Mask]
    | succ m =>
      have hstep : c0Mask (List.replicate (m + 1) true) (b :: t) =
          false :: c0Mask (List.replicate m true) t := by
        simp [c0Mask, List.replicate_succ]
      rw [hstep]
      simp [List.count_cons, ih m]

theorem meanB_replicate_true {n : ℕ} (h : n ≠ 0) :
    meanB (List.replicate n true) = NVal.val 1 := by
  have hne : List.replicate n true ≠ [] := by
    simpa [List.replicate_eq_nil_iff] using h
  rw [meanB_eq hne]
  congr 1
  unfold fracTreated
  have hc : (List.replicate n true).count true = n := by simp
  rw [hc, List.length_replicate, div_self (by exact_mod_cast h)]

/-! ## C10: in extr_val_sd the cost enters only the value estimate,
shifting it by cost times the treated fraction -/

/-- C10: the cost argument of extr_val_sd affects only the value
estimate, not the (squared) standard error, and the value estimate at
cost c equals the cost-0 value estimate minus c times the fraction of
units the policy assigns to treatment. -/
theorem c10_cost_shift (y : List ℚ) (w a : List Bool) (c : ℚ)
    (h1 : 0 < (c1Mask a w).count true) (_h0 : 0 < (c0Mask a w).count true) :
    (extr_val_sd y w a c).2 = (extr_val_sd y w a 0).2 ∧
    (extr_val_sd y w a c).1 =
      (extr_val_sd y w a 0).1 - NVal.val (c * fracTreated a) := by
  have ha : a ≠ [] := by
    intro hnil
    rw [hnil, c1Mask_nil_left] at h1
    simp at h1
  refine ⟨rfl, ?_⟩
  have hm : extr_mean_1 y w a c =
      extr_mean_1 y w a 0 - NVal.val (c * fracTreated a) := by
    unfold extr_mean_1
    rw [meanN_map_val_sub, meanN_map_val_sub, meanB_eq ha, sub_val_zero,
      sub_val_mul_val]
  show extr_mean_1 y w a c + extr_mean_0 y w a = _
  rw [hm, sub_val_add]
  rfl

/-- C10 witness: concrete evaluation set with both strata populated. -/
theorem c10_cost_shift_witness :
    (extr_val_sd [1, 2] [true, false] [true, false] 5).1 =
      (extr_val_sd [1, 2] [true, false] [true, false] 0).1 -
        NVal.val (5 * fracTreated [true, false]) :=
  (c10_cost_shift [1, 2] [true, false] [true, false] 5 (by decide) (by decide)).2

/-! ## C5: an empty stratum makes extr_val_sd return NaN, not raise -/

/-- C5: when the policy/treatment combination leaves a stratum empty (no
unit with a = True and w = 1, or none with a = False and w = 0), both
components returned by extr_val_sd are NaN: the empty-slice mean and
variance are NaN and propagate, and no exception is raised (the
embedding, like numpy float arithmetic, is total). -/
theorem c5_empty_stratum_nan (y : List ℚ) (w a : List Bool) (cost : ℚ)
    (h : (c1Mask a w).count true = 0 ∨ (c0Mask a w).count true = 0) :
    extr_val_sd y w a cost = (NVal.nan, NVal.nan) := by
  rcases h with h | h
  · have hsel := maskSel_count_zero y h
    have hm1 : extr_mean_1 y w a cost = NVal.nan := by
      simp [extr_mean_1, hsel]
    have hv1 : extr_var_1 y w a = NVal.nan := by
      simp [extr_var_1, hsel]
    simp [extr_val_sd, hm1, hv1]
  · have hsel := maskSel_count_zero y h
    have hm0 : extr_mean_0 y w a = NVal.nan := by
      simp [extr_mean_0, hsel]
    have hv0 : extr_var_0 y w a = NVal.nan := by
      simp [extr_var_0, hsel]
    simp [extr_val_sd, hm0, hv0]

/-- C5 witness: a policy that treats nobody while the only unit is
treated leaves both strata empty. -/
theorem c5_empty_stratum_nan_witness :
    extr_val_sd [1] [true] [false] 0 = (NVal.nan, NVal.nan) :=
  c5_empty_stratum_nan [1] [true] [false] 0 (Or.inl (by decide))

/-! ## C3: the treat-everyone policy does NOT return the treated mean -/

/-- C3 counterexample: with outcomes [1, 3], both units treated, and the
all-True assignment, the claimed value (the treated mean, 2) is not what
extr_val_sd returns: the empty control stratum makes the estimate NaN. -/
theorem c3_treat_all_counterexample :
    (extr_val_sd [1, 3] [true, true] [true, true] 0).1 ≠ NVal.val 2 := by
  decide

/-- C3 amended: for every evaluation set with at least one treated unit,
extr_val_sd on the all-True assignment with cost 0 returns NaN as its
value estimate (the empty control stratum's NaN mean propagates through
mean_1 + mean_0), while the treated-arm term mean_1 alone equals the mean
outcome among treated units. -/
theorem c3_treat_all_amended (y : List ℚ) (w : List Bool)
    (hlen : w.length = y.length) (ht : maskSel y w ≠ []) :
    (extr_val_sd y w (List.replicate y.length true) 0).1 = NVal.nan ∧
    extr_mean_1 y w (List.replicate y.length true) 0 =
      meanN ((maskSel y w).map NVal.val) := by
  have hy : y ≠ [] := by
    intro hnil
    rw [hnil] at ht
    simp [maskSel] at ht
  have hn : y.length ≠ 0 := by simpa [List.length_eq_zero] using hy
  have hc1 : c1Mask (List.replicate y.length true) w = w := by
    rw [c1Mask_replicate, ← hlen, List.take_length]
  have hm1 : extr_mean_1 y w (List.replicate y.length true) 0 =
      meanN ((maskSel y w).map NVal.val) := by
    unfold extr_mean_1
    rw [hc1, meanB_replicate_true hn, NVal.mul_val_one]
    simp only [sub_zero, List.map_id']
  refine ⟨?_, hm1⟩
  have hm0 : extr_mean_0 y w (List.replicate y.length true) = NVal.nan := by
    have hsel := maskSel_count_zero y (c0Mask_replicate_count y.length w)
    simp [extr_mean_0, hsel]
  show extr_mean_1 _ _ _ _ + extr_mean_0 _ _ _ = _
  rw [hm0, NVal.add_nan]

/-- C3 witness for the amended statement. -/
theorem c3_treat_all_amended_witness :
    (extr_val_sd [1, 3] [true, true]
      (List.replicate ([1, 3] : List ℚ).length true) 0).1 = NVal.nan :=
  (c3_treat_all_amended [1, 3] [true, true] rfl (by decide)).1

/-! ## Index access through zipWith chains -/

theorem getD_zipWith_lt {α β γ : Type} (f : α → β → γ) (l₁ : List α)
    (l₂ : List β) (i : ℕ) (d₁ : α) (d₂ : β) (d₃ : γ)
    (h₁ : i < l₁.length) (h₂ : i < l₂.length) :
    (List.zipWith f l₁ l₂).getD i d₃ = f (l₁.getD i d₁) (l₂.getD i d₂) := by
  induction l₁ generalizing l₂ i with
  | nil => simp at h₁
  | cons a t ih =>
    cases l₂ with
    | nil => simp at h₂
    | cons b t2 =>
      cases i with
      | zero => rfl
      | succ m =>
        simp only [List.zipWith_cons_cons, List.getD_cons_succ]
        exact ih t2 m (by simpa using h₁) (by simpa using h₂)

theorem getD_zip_lt {α β : Type} (l₁ : List α) (l₂ : List β) (i : ℕ)
    (d₁ : α) (d₂ : β) (h₁ : i < l₁.length) (h₂ : i < l₂.length) :
    (l₁.zip l₂).getD i (d₁, d₂) = (l₁.getD i d₁, l₂.getD i d₂) :=
  getD_zipWith_lt Prod.mk l₁ l₂ i d₁ d₂ (d₁, d₂) h₁ h₂

/-! ## C4: double_robust_score does not clip the propensity estimates -/

/-- C4 counterexample: there is no positive epsilon for which the
propensity values that double_robust_score divides by lie in
(epsilon, 1 - epsilon): for the forest state with treatment residual 0
on an untreated unit, the divisor e_hat = w - residuals[1] is exactly
0. -/
theorem c4_no_clipping_counterexample :
    ¬ ∃ ε : ℚ, 0 < ε ∧ ∀ q ∈ drs_e_hat fmW [0], ε < q ∧ q < 1 - ε := by
  rintro ⟨ε, hε, h⟩
  have h0 : (0 : ℚ) ∈ drs_e_hat fmW [0] := by
    simp [drs_e_hat, fmW]
  have := (h 0 h0).1
  linarith

/-- C4 amended: double_robust_score applies no assertion or clipping to
the propensity estimates; it divides by e_hat = w - residuals[1] exactly
as computed, so whenever some unit has w = 0 and treatment residual 0
(hence e_hat = 0), its treated-arm score gamma_hat_1 is NaN: the
division-by-degenerate-propensity branch is reachable. -/
theorem c4_unclipped_division_nan (fm : ForestModel) (y w : List ℚ)
    (x : List (List ℚ)) (i : ℕ)
    (hy : i < y.length) (hw : i < w.length)
    (hr0 : i < fm.residuals_.1.length) (hr1 : i < fm.residuals_.2.length)
    (ht : i < (fm.effectFn x).length)
    (hwi : w.getD i 0 = 0) (hri : fm.residuals_.2.getD i 0 = 0) :
    (double_robust_score fm y w x).1.getD i NVal.nan = NVal.nan := by
  have he_len : i < (drs_e_hat fm w).length := by
    simp only [drs_e_hat, List.length_zipWith]
    omega
  have hyh_len : i < (drs_y_hat fm y).length := by
    simp only [drs_y_hat, List.length_zipWith]
    omega
  have hmu_len : i < (drs_mu_hat_1 fm y w x).length := by
    simp only [drs_mu_hat_1, List.length_zipWith]
    omega
  have hzip1 : i < ((drs_mu_hat_1 fm y w x).zip y).length := by
    simp only [List.length_zip]
    omega
  have hzip2 : i < (w.zip (drs_e_hat fm w)).length := by
    simp only [List.length_zip]
    omega
  have he0 : (drs_e_hat fm w).getD i 0 = 0 := by
    rw [drs_e_hat, getD_zipWith_lt _ _ _ _ 0 0 0 hw hr1, hwi, hri]
    ring
  show (drs_gamma_hat_1 fm y w x).getD i NVal.nan = NVal.nan
  rw [drs_gamma_hat_1,
    getD_zipWith_lt _ _ _ _ ((0 : ℚ), (0 : ℚ)) ((0 : ℚ), (0 : ℚ)) NVal.nan
      hzip1 hzip2,
    getD_zip_lt _ _ _ _ _ hw he_len, he0, hwi]
  simp

/-- C4 witness for the amended statement: a one-unit input with w = 0 and
treatment residual 0 produces a NaN treated-arm score. -/
theorem c4_unclipped_division_nan_witness :
    (double_robust_score fmW [1] [0] []).1.getD 0 NVal.nan = NVal.nan :=
  c4_unclipped_division_nan fmW [1] [0] [] 0 (by decide) (by decide)
    (by decide) (by decide) (by decide) (by decide) (by decide)

/-! ## C9: double_robust_score is a pure, deterministic function -/

/-- C9: double_robust_score is deterministic — two calls that agree on
the forest residuals, the effect predictions, the outcomes and the
treatments return equal score pairs — and a call returns its forest
model unchanged (the source only reads residuals_ and calls effect,
assigning to nothing). -/
theorem c9_pure_deterministic (fm fm' : ForestModel) (y y' w w' : List ℚ)
    (x x' : List (List ℚ))
    (hres : fm.residuals_ = fm'.residuals_)
    (heff : fm.effectFn x = fm'.effectFn x')
    (hy : y = y') (hw : w = w') :
    (double_robust_score_call fm y w x).1 =
        (double_robust_score_call fm' y' w' x').1 ∧
    (double_robust_score_call fm y w x).2 = fm := by
  subst hy hw
  refine ⟨?_, rfl⟩
  simp only [double_robust_score_call, double_robust_score,
    drs_gamma_hat_1, drs_gamma_hat_0, drs_mu_hat_1, drs_mu_hat_0,
    drs_y_hat, drs_e_hat, hres, heff]

/-- C9 witness at a concrete forest state and data. -/
theorem c9_pure_deterministic_witness :
    (double_robust_score_call fmW [1] [0] []).1 =
        (double_robust_score_call fmW [1] [0] []).1 ∧
    (double_robust_score_call fmW [1] [0] []).2 = fmW :=
  c9_pure_deterministic fmW fmW [1] [1] [0] [0] [] [] rfl rfl rfl rfl

/-! ## C1: the combined AIPW score, and the slip at line 441 -/

/-- C1: at line 441 the code computes `pi_hat + gamma_hat_1 + (1 - pi_hat) * gamma_hat_0`,
adding the policy indicator to the treated-arm score instead of
multiplying it.  For the policy that treats no one with scores
gamma_1 = [1], gamma_0 = [0], the line-441 value estimate (the mean of
the combined scores) is 1, while the claimed combination
`pi * gamma_1 + (1 - pi) * gamma_0` — the form at lines 218 and 562 —
averages to 0, the average control-arm score. -/
theorem c1_line441_divergence :
    meanN (gamma_hat_pi_441 [false] [NVal.val 1] [NVal.val 0]) = NVal.val 1 ∧
    meanN (gamma_hat_pi [false] [NVal.val 1] [NVal.val 0]) = NVal.val 0 := by
  have h441 : gamma_hat_pi_441 [false] [NVal.val 1] [NVal.val 0] =
      [NVal.val 1] := by
    simp [gamma_hat_pi_441]
  have h218 : gamma_hat_pi [false] [NVal.val 1] [NVal.val 0] =
      [NVal.val 0] := by
    simp [gamma_hat_pi]
  constructor
  · rw [h441, meanN, sumN]
    simp
    rw [NVal.val_div_val _ (by norm_num)]
    norm_num
  · rw [h218, meanN, sumN]
    simp
    rw [NVal.val_div_val _ (by norm_num)]
    norm_num

/-! ## C2: the "ratio" ranking ignores the benefit estimate -/

/-- C2: with benefit estimates tau_hat = [1, 1] and cost estimates
gamm_hat = [1, 2], the source's rank_ratio — which argsorts -gamm_hat
alone — puts unit 1 (the costlier unit) first, while ranking by
decreasing benefit-to-cost ratio (1/1 > 1/2) must put unit 0 first. -/
theorem c2_rank_ratio_divergence :
    rank_ratio [1, 2] = [1, 0] ∧ rank_ratio_spec [1, 1] [1, 2] = [0, 1] := by
  constructor
  · norm_num [rank_ratio, argsort, List.insertionSort,
      List.orderedInsert, idxLe, valD, List.range_succ]
  · norm_num [rank_ratio_spec, argsort, List.insertionSort,
      List.orderedInsert, idxLe, valD, List.range_succ]

/-! ## C8: train rows and evaluation rows never overlap -/

/-- C8: the rows a policy is fit on (`iloc[:train]`) and the rows its
value is estimated on (`iloc[train:]`) are disjoint index sets, for
every data length and split point. -/
theorem c8_train_test_disjoint (n_row train : ℕ) :
    ∀ u ∈ fitRows n_row train, u ∉ testRows n_row train := by
  intro u hu hv
  exact List.disjoint_take_drop (List.nodup_range n_row) (le_refl train) hu hv

/-- C8 witness: row 0 of a 4-row data set split at 2 is a training row
and therefore not an evaluation row. -/
theorem c8_train_test_disjoint_witness : 0 ∉ testRows 4 2 :=
  c8_train_test_disjoint 4 2 0 (by decide)

/-! ## Facts about argsort -/

theorem argsort_sorted (l : List ℚ) : (argsort l).Sorted (idxLe l) :=
  List.sorted_insertionSort (idxLe l) (List.range l.length)

theorem argsort_perm (l : List ℚ) :
    List.Perm (argsort l) (List.range l.length) :=
  List.perm_insertionSort (idxLe l) (List.range l.length)

theorem valD_map_neg (l : List ℚ) (i : ℕ) :
    valD (l.map (fun q => -q)) i = -valD l i := by
  unfold valD
  rw [List.getD_eq_get?, List.getD_eq_get?, List.get?_map]
  cases l.get? i with
  | none => simp
  | some q => simp

theorem valD_nonneg_of_mem {cost : List ℚ} (hc : ∀ q ∈ cost, 0 ≤ q)
    (u : ℕ) : 0 ≤ valD cost u := by
  unfold valD
  rw [List.getD_eq_get?]
  cases h : cost.get? u with
  | none => simp
  | some q =>
    simp only [Option.getD_some]
    exact hc q (List.get?_mem h)

/-! ## C6: with a budget covering every positive-ratio unit, the greedy
ranking walk is the treat-if-positive policy -/

theorem greedyGo_eq_filter (ratio cost : List ℚ) (lst : List ℕ) :
    ∀ b : ℚ,
      (∀ u, 0 ≤ valD cost u) →
      lst.Sorted (idxLe (ratio.map (fun q => -q))) →
      costSum cost (lst.filter (fun u => decide (0 < valD ratio u))) ≤ b →
      greedyGo ratio cost b lst =
        lst.filter (fun u => decide (0 < valD ratio u)) := by
  induction lst with
  | nil =>
    intro b _ _ _
    rfl
  | cons u rest ih =>
    intro b hc hs hb
    by_cases hpos : valD ratio u ≤ 0
    · have hrest : rest.filter (fun v => decide (0 < valD ratio v)) = [] := by
        rw [List.filter_eq_nil_iff]
        intro v hv
        have hr := List.rel_of_sorted_cons hs v hv
        simp only [decide_eq_true_eq]
        rcases hr with hlt | ⟨heq, _⟩
        · rw [valD_map_neg, valD_map_neg] at hlt
          intro hvpos
          linarith
        · rw [valD_map_neg, valD_map_neg] at heq
          intro hvpos
          have : valD ratio v = valD ratio u := by linarith
          linarith
      have hu : ¬(0 < valD ratio u) := not_lt.mpr hpos
      simp only [greedyGo, if_pos hpos, List.filter_cons]
      simp [hu, hrest]
    · push_neg at hpos
      have hfil : (u :: rest).filter (fun v => decide (0 < valD ratio v)) =
          u :: rest.filter (fun v => decide (0 < valD ratio v)) := by
        simp [List.filter_cons, hpos]
      rw [hfil] at hb ⊢
      have hsum0 :
          0 ≤ costSum cost (rest.filter (fun v => decide (0 < valD ratio v))) := by
        unfold costSum
        apply List.sum_nonneg
        intro q hq
        obtain ⟨v, _, rfl⟩ := List.mem_map.mp hq
        exact hc v
      have hbsplit : valD cost u +
          costSum cost (rest.filter (fun v => decide (0 < valD ratio v))) ≤ b := by
        unfold costSum at hb ⊢
        simpa [List.map_cons, List.sum_cons] using hb
      have hcu : valD cost u ≤ b := by linarith
      simp only [greedyGo, if_neg (not_le.mpr hpos), if_neg (not_lt.mpr hcu)]
      congr 1
      apply ih (b - valD cost u) hc (List.Sorted.of_cons hs)
      unfold costSum at hbsplit ⊢
      linarith

/-- C6: the greedy budget-constrained ranking walk (modelled from the
spec on top of the source's ranking argsort(-ratio)) treats, for any
budget at least the total cost of all positive-ratio units and
nonnegative per-unit costs, exactly the units the treat-if-positive
policy `pi_hat = tau_hat > 0` treats. -/
theorem c6_greedy_large_budget (tau cost : List ℚ) (b : ℚ)
    (hc : ∀ q ∈ cost, 0 ≤ q)
    (hb : costSum cost (treat_if_positive tau) ≤ b) :
    ∀ u, u ∈ greedyPolicy tau cost b ↔ u ∈ treat_if_positive tau := by
  have hcv : ∀ u, 0 ≤ valD cost u := valD_nonneg_of_mem hc
  have hperm : List.Perm (argsort (tau.map (fun q => -q)))
      (List.range tau.length) := by
    have h := argsort_perm (tau.map (fun q => -q))
    rwa [List.length_map] at h
  have hfp : List.Perm ((argsort (tau.map (fun q => -q))).filter
      (fun u => decide (0 < valD tau u))) (treat_if_positive tau) := by
    unfold treat_if_positive
    exact hperm.filter _
  have hbb : costSum cost ((argsort (tau.map (fun q => -q))).filter
      (fun u => decide (0 < valD tau u))) ≤ b := by
    have heq : costSum cost ((argsort (tau.map (fun q => -q))).filter
        (fun u => decide (0 < valD tau u))) =
        costSum cost (treat_if_positive tau) := by
      unfold costSum
      exact (hfp.map (valD cost)).sum_eq
    rw [heq]
    exact hb
  have hgr := greedyGo_eq_filter tau cost (argsort (tau.map (fun q => -q))) b
    hcv (argsort_sorted _) hbb
  intro u
  unfold greedyPolicy
  rw [hgr]
  unfold treat_if_positive
  rw [List.mem_filter, List.mem_filter, hperm.mem_iff]

/-- C6 witness: two units with effects 1 and -1, unit costs, budget 2. -/
theorem c6_greedy_large_budget_witness :
    0 ∈ greedyPolicy [1, -1] [1, 1] 2 ↔ 0 ∈ treat_if_positive [1, -1] :=
  c6_greedy_large_budget [1, -1] [1, 1] 2 (by norm_num)
    (by norm_num [costSum, treat_if_positive, valD, List.range_succ]) 0

/-! ## C7: negating the estimates reverses the ranking — up to ties -/

/-- C7 counterexample: with tied estimates [5, 5] the stable argsort
breaks ties by original position in both orders, so the ranking of the
negated estimates is [0, 1], not the reverse [1, 0] of the original
ranking. -/
theorem c7_ties_counterexample :
    rank_ignore_cost (([5, 5] : List ℚ).map (fun q => -q)) ≠
      (rank_ignore_cost [5, 5]).reverse := by
  intro h
  have h1 : rank_ignore_cost (([5, 5] : List ℚ).map (fun q => -q)) = [0, 1] := by
    norm_num [rank_ignore_cost, argsort, List.insertionSort,
      List.orderedInsert, idxLe, valD, List.range_succ]
  have h2 : (rank_ignore_cost [5, 5]).reverse = [1, 0] := by
    norm_num [rank_ignore_cost, argsort, List.insertionSort,
      List.orderedInsert, idxLe, valD, List.range_succ]
  rw [h1, h2] at h
  simp at h

theorem map_neg_neg (l : List ℚ) :
    (l.map (fun q => -q)).map (fun q => -q) = l := by
  rw [List.map_map]
  simp [Function.comp_def]

theorem nodup_valD_inj {l : List ℚ} (h : l.Nodup) {i j : ℕ}
    (hi : i < l.length) (hj : j < l.length) (he : valD l i = valD l j) :
    i = j := by
  unfold valD at he
  rw [List.getD_eq_getElem l 0 hi, List.getD_eq_getElem l 0 hj] at he
  have hinj := List.nodup_iff_injective_getElem.mp h
  have h2 := @hinj ⟨i, hi⟩ ⟨j, hj⟩ (by simpa using he)
  exact congrArg Fin.val h2

/-- C7 amended: for effect-estimate vectors with pairwise distinct
entries, the ranking produced from the negated estimates is the exact
reverse of the ranking produced from the original estimates; tied
entries break this, as the counterexample shows. -/
theorem c7_reversal_distinct (tau : List ℚ) (h : tau.Nodup) :
    rank_ignore_cost (tau.map (fun q => -q)) =
      (rank_ignore_cost tau).reverse := by
  unfold rank_ignore_cost
  rw [map_neg_neg]
  have hlen : (tau.map (fun q => -q)).length = tau.length :=
    List.length_map _ _
  have P1 : List.Perm (argsort tau) (List.range tau.length) :=
    argsort_perm tau
  have P2 : List.Perm (argsort (tau.map (fun q => -q)))
      (List.range tau.length) := by
    have hp := argsort_perm (tau.map (fun q => -q))
    rwa [hlen] at hp
  have PR : List.Perm (argsort (tau.map (fun q => -q))).reverse
      (List.range tau.length) :=
    (List.reverse_perm _).trans P2
  have S1 : (argsort tau).Sorted (idxLe tau) := argsort_sorted tau
  have S2 : (argsort (tau.map (fun q => -q))).Sorted
      (idxLe (tau.map (fun q => -q))) := argsort_sorted _
  have SR : (argsort (tau.map (fun q => -q))).reverse.Pairwise
      (fun a b => idxLe (tau.map (fun q => -q)) b a) :=
    List.pairwise_reverse.mpr S2
  have SR2 : (argsort (tau.map (fun q => -q))).reverse.Sorted (idxLe tau) := by
    apply List.Pairwise.imp_of_mem _ SR
    intro a b ha hb hr
    have haa : a < tau.length := by
      have hm := PR.mem_iff.mp ha
      simpa [List.mem_range] using hm
    have hbb : b < tau.length := by
      have hm := PR.mem_iff.mp hb
      simpa [List.mem_range] using hm
    rcases hr with hlt | ⟨heq, _⟩
    · rw [valD_map_neg, valD_map_neg] at hlt
      exact Or.inl (by linarith)
    · rw [valD_map_neg, valD_map_neg] at heq
      have hv : valD tau a = valD tau b := by linarith
      have hab : a = b := nodup_valD_inj h haa hbb hv
      exact Or.inr ⟨hv, hab ▸ le_refl a⟩
  exact List.eq_of_perm_of_sorted (P1.trans PR.symm) S1 SR2

/-- C7 witness: distinct estimates [1, 2]. -/
theorem c7_reversal_distinct_witness :
    rank_ignore_cost (([1, 2] : List ℚ).map (fun q => -q)) =
      (rank_ignore_cost [1, 2]).reverse :=
  c7_reversal_distinct [1, 2] (by norm_num)
